import Mathlib

/-!
Shallow embedding of `src/app.py` (Flask image editor).

The two mechanisms with design content are embedded faithfully:

* `wrap_text` (src/app.py lines 23-41): greedy word wrap.  Text is modelled
  as a list of characters (`Str`); Python's `text.split()` is modelled by
  `words`, which splits on whitespace and drops empty pieces; the font
  measurement `draw.textbbox((0,0), s, font)[2]` is an arbitrary function
  `m : Str → Int`, and `max_width` an arbitrary `Int`.

* The ephemeral store (`EPHEMERAL_STORE`, `IMAGE_LIFETIME`,
  `edit_image` lines 115-131, `temp_image` lines 133-159,
  `cleanup_ephemeral_store` lines 161-172).  The Python dict is modelled as
  an association list in insertion order; `time.time()` values are rationals
  passed explicitly; the payload (JPEG bytes) is an arbitrary type `α`.
  Within one `temp_image` call the two `time.time()` reads are modelled as
  the same instant.  The external compositing pipeline of `edit_image`
  (network fetches, decode, font load, drawing) is modelled by an
  `Except String α` argument: `Except.error msg` is an exception raised
  before the store insertion, carrying the message `str(e)`; `Except.ok p`
  is the successfully produced JPEG payload.
-/

/-- Characters of a Python string. -/
abbrev Str := List Char

/-- The space character, `chr(32)`. -/
def SP : Char := Char.ofNat 32

/-- `notWS c` holds when `c` is not whitespace. -/
def notWS (c : Char) : Bool := !c.isWhitespace

/-- Accumulator loop for `words`: `acc` is the (possibly empty) word read so
far; a whitespace character closes it, a non-whitespace character extends
it. -/
def wordsAux : Str → Str → List Str
  | acc, [] => if acc = [] then [] else [acc]
  | acc, c :: cs =>
    if c.isWhitespace then
      if acc = [] then wordsAux [] cs else acc :: wordsAux [] cs
    else wordsAux (acc ++ [c]) cs

/-- Python's `text.split()`: split on runs of whitespace, dropping empty
pieces, so the result is the list of maximal whitespace-free nonempty
substrings. -/
def words (s : Str) : List Str := wordsAux [] s

/-- Python's `" ".join(lines)`. -/
def joinSpaces : List Str → Str
  | [] => []
  | [t] => t
  | t :: u :: ts => t ++ SP :: joinSpaces (u :: ts)

/-- The loop of `wrap_text` (src/app.py lines 31-40): `cur` is
`current_line`, the remaining words are consumed greedily; `cur ++ SP :: w`
is `current_line + " " + word`. -/
def wrapLoop (m : Str → Int) (mw : Int) : Str → List Str → List Str
  | cur, [] => [cur]
  | cur, w :: ws =>
    if m (cur ++ SP :: w) ≤ mw then wrapLoop m mw (cur ++ SP :: w) ws
    else cur :: wrapLoop m mw w ws

/-- `wrap_text` (src/app.py lines 23-41): split `text` into words; if there
are none return `[""]`; otherwise wrap greedily starting from the first
word. -/
def wrap_text (m : Str → Int) (mw : Int) (text : Str) : List Str :=
  match words text with
  | [] => [[]]
  | w :: ws => wrapLoop m mw w ws

/-- An entry of `EPHEMERAL_STORE` (src/app.py lines 117-120): the dict
`{"data": ..., "expires_at": ...}`.  The payload type `α` stands for the
JPEG byte string. -/
structure StoredImage (α : Type) where
  data : α
  expires_at : ℚ
deriving DecidableEq

/-- `EPHEMERAL_STORE` (src/app.py line 14): a Python dict modelled as an
association list in insertion order (keys unique in any state reachable
through the operations below). -/
abbrev Store (α : Type) := List (String × StoredImage α)

/-- `IMAGE_LIFETIME` (src/app.py line 17): lifetime in seconds. -/
def IMAGE_LIFETIME : ℚ := 60

/-- Dict lookup `EPHEMERAL_STORE[k]` / membership `k in EPHEMERAL_STORE`. -/
def dictGet {α : Type} (s : Store α) (k : String) : Option (StoredImage α) :=
  (s.find? (fun p => p.1 == k)).map (fun p => p.2)

/-- Dict assignment `EPHEMERAL_STORE[k] = v`: replaces in place when the key
is present, appends otherwise. -/
def dictSet {α : Type} (s : Store α) (k : String) (v : StoredImage α) :
    Store α :=
  if s.any (fun p => p.1 == k) then
    s.map (fun p => if p.1 == k then (k, v) else p)
  else s ++ [(k, v)]

/-- The store insertion of `edit_image` (src/app.py lines 116-120):
`EPHEMERAL_STORE[image_id] = {"data": ..., "expires_at": time.time() +
IMAGE_LIFETIME}`. -/
def insertImage {α : Type} (s : Store α) (image_id : String) (payload : α)
    (now : ℚ) : Store α :=
  dictSet s image_id ⟨payload, now + IMAGE_LIFETIME⟩

/-- `cleanup_ephemeral_store` (src/app.py lines 161-172): remove every entry
with `now > expires_at`, keep the rest in order. -/
def cleanup_ephemeral_store {α : Type} (s : Store α) (now : ℚ) : Store α :=
  s.filter (fun p => !decide (p.2.expires_at < now))

/-- `temp_image` (src/app.py lines 133-159): run the cleanup, look the id
up (`abort(404)` is modelled as `none`), double-check expiry (popping the
entry when it triggers), otherwise serve the stored bytes.  The resulting
store state is returned alongside the response body. -/
def temp_image {α : Type} (s : Store α) (image_id : String) (now : ℚ) :
    Option α × Store α :=
  match dictGet (cleanup_ephemeral_store s now) image_id with
  | none => (none, cleanup_ephemeral_store s now)
  | some entry =>
    if entry.expires_at < now then
      (none, (cleanup_ephemeral_store s now).filter
        (fun p => !(p.1 == image_id)))
    else (some entry.data, cleanup_ephemeral_store s now)

/-- `edit_image` (src/app.py lines 43-131), at the granularity the store
sees: `pipeline` is the outcome of everything inside the `try:` block
before line 116 (JSON parsing, the two fetches, decoding, font load,
drawing, JPEG encoding).  On an exception the handler answers
`jsonify({"error": str(e)}), 400` and the store is untouched; on success it
inserts the payload and answers 200.  The reply is modelled as (status,
error message). -/
def edit_image {α : Type} (s : Store α) (pipeline : Except String α)
    (image_id : String) (now : ℚ) : (Nat × Option String) × Store α :=
  match pipeline with
  | Except.error msg => ((400, some msg), s)
  | Except.ok payload => ((200, none), insertImage s image_id payload now)

theorem SP_isWhitespace : SP.isWhitespace = true := by decide

theorem wordsAux_all_ws (s : Str) (h : ∀ c ∈ s, c.isWhitespace) :
    wordsAux [] s = [] := by
  induction s with
  | nil => rfl
  | cons c cs ih =>
    have hc : c.isWhitespace := h c (by simp)
    simp only [wordsAux, hc, if_pos rfl, if_true]
    exact ih fun d hd => h d (by simp [hd])

theorem words_all_ws (s : Str) (h : ∀ c ∈ s, c.isWhitespace) :
    words s = [] :=
  wordsAux_all_ws s h

theorem wordsAux_token (r : Str) (t : Str) :
    ∀ acc : Str, (∀ c ∈ t, notWS c) →
    wordsAux acc (t ++ SP :: r) =
      (if acc ++ t = [] then words r else (acc ++ t) :: words r) := by
  induction t with
  | nil =>
    intro acc _
    simp only [List.nil_append, List.append_nil, wordsAux, SP_isWhitespace,
      if_true, words]
  | cons c t2 ih =>
    intro acc h
    have hc : c.isWhitespace = false := by
      have := h c (by simp)
      simpa [notWS] using this
    have h2 : ∀ d ∈ t2, notWS d := fun d hd => h d (by simp [hd])
    simp only [List.cons_append, wordsAux, hc, Bool.false_eq_true,
      ite_false, List.append_eq]
    rw [ih (acc ++ [c]) h2]
    simp [List.append_assoc]

theorem words_token_append (t r : Str) (ht : t ≠ [])
    (h : ∀ c ∈ t, notWS c) :
    words (t ++ SP :: r) = t :: words r := by
  show wordsAux [] (t ++ SP :: r) = t :: words r
  rw [wordsAux_token r t [] h]
  simp [ht]

theorem wordsAux_no_ws (t : Str) :
    ∀ acc : Str, (∀ c ∈ t, notWS c) →
    wordsAux acc t = (if acc ++ t = [] then [] else [acc ++ t]) := by
  induction t with
  | nil => intro acc _; simp [wordsAux]
  | cons c t2 ih =>
    intro acc h
    have hc : c.isWhitespace = false := by
      have := h c (by simp)
      simpa [notWS] using this
    have h2 : ∀ d ∈ t2, notWS d := fun d hd => h d (by simp [hd])
    simp only [wordsAux, hc, Bool.false_eq_true, ite_false,
      ih (acc ++ [c]) h2, List.append_assoc, List.singleton_append]

theorem words_token (t : Str) (ht : t ≠ []) (h : ∀ c ∈ t, notWS c) :
    words t = [t] := by
  show wordsAux [] t = [t]
  rw [wordsAux_no_ws t [] h]
  simp [ht]

theorem words_sound (s : Str) :
    ∀ acc : Str, (∀ c ∈ acc, notWS c) →
    ∀ t ∈ wordsAux acc s, t ≠ [] ∧ ∀ c ∈ t, notWS c := by
  induction s with
  | nil =>
    intro acc hacc t ht
    by_cases h : acc = []
    · simp [wordsAux, h] at ht
    · simp only [wordsAux, h, ite_false, List.mem_singleton] at ht
      exact ht ▸ ⟨h, hacc⟩
  | cons c cs ih =>
    intro acc hacc t ht
    by_cases hc : c.isWhitespace
    · by_cases h : acc = []
      · simp only [wordsAux, hc, if_true, h, ite_true] at ht
        exact ih [] (by simp) t ht
      · simp only [wordsAux, hc, if_true, h, ite_false,
          List.mem_cons] at ht
        rcases ht with rfl | ht
        · exact ⟨h, hacc⟩
        · exact ih [] (by simp) t ht
    · simp only [wordsAux, hc, ite_false] at ht
      refine ih (acc ++ [c]) ?_ t ht
      intro d hd
      rcases List.mem_append.1 hd with hd | hd
      · exact hacc d hd
      · simp only [List.mem_singleton] at hd
        subst hd
        simp [notWS, hc]

theorem mem_words (s t : Str) (h : t ∈ words s) :
    t ≠ [] ∧ ∀ c ∈ t, notWS c :=
  words_sound s [] (by simp) t h

theorem joinSpaces_append (l1 l2 : List Str) (h1 : l1 ≠ []) (h2 : l2 ≠ []) :
    joinSpaces (l1 ++ l2) = joinSpaces l1 ++ SP :: joinSpaces l2 := by
  induction l1 with
  | nil => exact absurd rfl h1
  | cons t ts ih =>
    cases ts with
    | nil =>
      cases l2 with
      | nil => exact absurd rfl h2
      | cons u us => simp [joinSpaces]
    | cons u us =>
      have step := ih (by simp)
      show joinSpaces (t :: ((u :: us) ++ l2)) =
        (t ++ SP :: joinSpaces (u :: us)) ++ SP :: joinSpaces l2
      have hcons : ∃ v vs, (u :: us) ++ l2 = v :: vs := ⟨u, us ++ l2, rfl⟩
      obtain ⟨v, vs, hv⟩ := hcons
      rw [hv]
      show t ++ SP :: joinSpaces (v :: vs) =
        (t ++ SP :: joinSpaces (u :: us)) ++ SP :: joinSpaces l2
      rw [← hv, step]
      simp

theorem joinSpaces_ne_nil (ts : List Str) (h : ts ≠ [])
    (h1 : ∀ t ∈ ts, t ≠ []) : joinSpaces ts ≠ [] := by
  cases ts with
  | nil => exact absurd rfl h
  | cons t us =>
    cases us with
    | nil => exact h1 t (by simp)
    | cons u vs =>
      show t ++ SP :: joinSpaces (u :: vs) ≠ []
      simp

theorem words_joinSpaces (ts : List Str)
    (h : ∀ t ∈ ts, t ≠ [] ∧ ∀ c ∈ t, notWS c) :
    words (joinSpaces ts) = ts := by
  induction ts with
  | nil => rfl
  | cons t us ih =>
    cases us with
    | nil => exact words_token t (h t (by simp)).1 (h t (by simp)).2
    | cons u vs =>
      show words (t ++ SP :: joinSpaces (u :: vs)) = t :: u :: vs
      rw [words_token_append t _ (h t (by simp)).1 (h t (by simp)).2]
      rw [ih fun w hw => h w (by simp [hw])]

theorem join_ne_nil_of_head_ne_nil (c : List Str) (cs : List (List Str))
    (hc : c ≠ []) : (c :: cs).flatten ≠ [] := by
  cases c with
  | nil => exact absurd rfl hc
  | cons x xs => simp

theorem joinSpaces_flatten (chunks : List (List Str))
    (h : ∀ c ∈ chunks, c ≠ []) :
    joinSpaces (chunks.map joinSpaces) = joinSpaces chunks.flatten := by
  induction chunks with
  | nil => rfl
  | cons c cs ih =>
    cases cs with
    | nil => simp [joinSpaces]
    | cons d ds =>
      have hne : ∀ e ∈ d :: ds, e ≠ [] := fun e he => h e (by simp [he])
      show joinSpaces (joinSpaces c :: joinSpaces d ::
        (ds.map joinSpaces)) = joinSpaces (c ++ (d :: ds).flatten)
      rw [joinSpaces_append c ((d :: ds).flatten) (h c (by simp))
        (join_ne_nil_of_head_ne_nil d ds (hne d (by simp)))]
      have step : joinSpaces (joinSpaces d :: (ds.map joinSpaces)) =
          joinSpaces ((d :: ds).flatten) := ih hne
      show joinSpaces c ++ SP :: joinSpaces (joinSpaces d ::
        (ds.map joinSpaces)) = _
      rw [step]

theorem mem_join_decomp {β : Type} (L : List (List β)) (c : List β)
    (h : c ∈ L) : ∃ pre post, pre ++ c ++ post = L.flatten := by
  induction L with
  | nil => cases h
  | cons a as ih =>
    rcases List.mem_cons.1 h with rfl | h
    · exact ⟨[], as.flatten, by simp⟩
    · obtain ⟨p, q, hpq⟩ := ih h
      exact ⟨a ++ p, q, by simp [← hpq, List.append_assoc]⟩

theorem wrapLoop_chunks (m : Str → Int) (mw : Int) :
    ∀ (rest : List Str) (curToks : List Str), curToks ≠ [] →
    (curToks.length = 1 ∨ m (joinSpaces curToks) ≤ mw) →
    ∃ chunks : List (List Str),
      chunks ≠ [] ∧
      chunks.flatten = curToks ++ rest ∧
      (∀ c ∈ chunks, c ≠ []) ∧
      (∀ c ∈ chunks, c.length = 1 ∨ m (joinSpaces c) ≤ mw) ∧
      wrapLoop m mw (joinSpaces curToks) rest = chunks.map joinSpaces := by
  intro rest
  induction rest with
  | nil =>
    intro curToks hne hinv
    exact ⟨[curToks], by simp, by simp, by simp [hne],
      by simpa using hinv, by simp [wrapLoop]⟩
  | cons w ws ih =>
    intro curToks hne hinv
    have hjoin : joinSpaces curToks ++ SP :: w =
        joinSpaces (curToks ++ [w]) := by
      rw [joinSpaces_append curToks [w] hne (by simp)]
      rfl
    by_cases hfit : m (joinSpaces curToks ++ SP :: w) ≤ mw
    · obtain ⟨chunks, hn, hj, hcne, hcinv, hout⟩ :=
        ih (curToks ++ [w]) (by simp) (Or.inr (by rwa [← hjoin]))
      refine ⟨chunks, hn, ?_, hcne, hcinv, ?_⟩
      · rw [hj, List.append_assoc]
        rfl
      · show wrapLoop m mw (joinSpaces curToks) (w :: ws) = _
        rw [wrapLoop, if_pos hfit, hjoin, hout]
    · obtain ⟨chunks, hn, hj, hcne, hcinv, hout⟩ :=
        ih [w] (by simp) (Or.inl rfl)
      refine ⟨curToks :: chunks, by simp, ?_, ?_, ?_, ?_⟩
      · rw [List.flatten_cons, hj]
        rfl
      · intro c hc
        rcases List.mem_cons.1 hc with rfl | hc
        · exact hne
        · exact hcne c hc
      · intro c hc
        rcases List.mem_cons.1 hc with rfl | hc
        · exact hinv
        · exact hcinv c hc
      · show wrapLoop m mw (joinSpaces curToks) (w :: ws) = _
        rw [wrapLoop, if_neg hfit]
        show joinSpaces curToks :: wrapLoop m mw w ws = _
        have : wrapLoop m mw (joinSpaces [w]) ws = chunks.map joinSpaces :=
          hout
        rw [List.map_cons, ← this]
        rfl

theorem wrap_text_chunks (m : Str → Int) (mw : Int) (text : Str)
    (h : words text ≠ []) :
    ∃ chunks : List (List Str),
      chunks ≠ [] ∧
      chunks.flatten = words text ∧
      (∀ c ∈ chunks, c ≠ []) ∧
      (∀ c ∈ chunks, c.length = 1 ∨ m (joinSpaces c) ≤ mw) ∧
      wrap_text m mw text = chunks.map joinSpaces := by
  obtain ⟨w, ws, hws⟩ : ∃ w ws, words text = w :: ws := by
    cases hw : words text with
    | nil => exact absurd hw h
    | cons w ws => exact ⟨w, ws, rfl⟩
  obtain ⟨chunks, hn, hj, hcne, hcinv, hout⟩ :=
    wrapLoop_chunks m mw ws [w] (by simp) (Or.inl rfl)
  refine ⟨chunks, hn, by rw [hj, hws]; rfl, hcne, hcinv, ?_⟩
  rw [wrap_text, hws]
  exact hout

theorem chunk_token_mem_words (text : Str) (chunks : List (List Str))
    (hj : chunks.flatten = words text) (c : List Str) (hc : c ∈ chunks) :
    ∀ t ∈ c, t ≠ [] ∧ ∀ d ∈ t, notWS d := by
  intro t ht
  exact mem_words text t (hj ▸ List.mem_flatten.2 ⟨c, hc, ht⟩)

/-- C1: for every input whose whitespace-split token sequence is non-empty,
joining the lines returned by `wrap_text` with single spaces and
re-splitting on whitespace yields exactly the original token sequence, for
any measure function and any `max_width`. -/
theorem wrap_text_join_resplit (m : Str → Int) (mw : Int) (text : Str)
    (h : words text ≠ []) :
    words (joinSpaces (wrap_text m mw text)) = words text := by
  obtain ⟨chunks, hn, hj, hcne, hcinv, hout⟩ := wrap_text_chunks m mw text h
  rw [hout, joinSpaces_flatten chunks hcne, hj]
  exact words_joinSpaces (words text) (fun t ht => mem_words text t ht)

/-- Witness for C1: the spec scenario, wrapping `"HELLO WORLD FOO"` with
measure `len * 10` at width 139. -/
theorem wrap_text_join_resplit_w :
    words (joinSpaces (wrap_text (fun s => (s.length : Int) * 10) 139
      (("HELLO WORLD FOO" : String)).toList)) =
      words (("HELLO WORLD FOO" : String)).toList :=
  wrap_text_join_resplit (fun s => (s.length : Int) * 10) 139
    (("HELLO WORLD FOO" : String)).toList (by decide)

/-- C2 as stated is false on an input with no tokens: on empty text the
single output line is the empty string, which is not a single word of the
input, yet an arbitrary measure function may give it a width above
`max_width` (here the constant measure 1 against `max_width = 0`). -/
theorem wrap_text_width_cex :
    ¬ (∀ line ∈ wrap_text (fun _ => (1 : Int)) 0 ([] : Str),
        (fun _ => (1 : Int)) line ≤ 0 ∨ line ∈ words ([] : Str)) := by
  decide

/-- C2 (amended): every output line measures ≤ `max_width`, or is a single
input word (kept whole even when over-wide), or is the empty line produced
when the input has no tokens; in particular every output line containing
two or more words measures ≤ `max_width`. -/
theorem wrap_text_width_le (m : Str → Int) (mw : Int) (text : Str) :
    ∀ line ∈ wrap_text m mw text,
      (m line ≤ mw ∨ line ∈ words text ∨ line = []) ∧
      (2 ≤ (words line).length → m line ≤ mw) := by
  intro line hline
  by_cases h : words text = []
  · rw [wrap_text, h] at hline
    simp only [List.mem_singleton] at hline
    subst hline
    refine ⟨Or.inr (Or.inr rfl), ?_⟩
    intro h2
    have : words ([] : Str) = [] := rfl
    rw [this] at h2
    simp at h2
  · obtain ⟨chunks, hn, hj, hcne, hcinv, hout⟩ :=
      wrap_text_chunks m mw text h
    rw [hout] at hline
    obtain ⟨c, hc, rfl⟩ := List.mem_map.1 hline
    rcases hcinv c hc with hc1 | hcw
    · obtain ⟨t, rfl⟩ := List.length_eq_one.1 hc1
      have htw : t ∈ words text :=
        hj ▸ List.mem_flatten.2 ⟨[t], hc, by simp⟩
      have hgood := mem_words text t htw
      constructor
      · exact Or.inr (Or.inl htw)
      · intro h2
        rw [show joinSpaces [t] = t from rfl,
          words_token t hgood.1 hgood.2] at h2
        simp at h2
    · exact ⟨Or.inl hcw, fun _ => hcw⟩

/-- Witness for C2 (amended): in the spec scenario the line
`"HELLO WORLD"` has two words, so its measure is within the width. -/
theorem wrap_text_width_le_w :
    (fun s => ((s : Str).length : Int) * 10)
      (("HELLO WORLD" : String)).toList ≤ 139 :=
  (wrap_text_width_le (fun s => (s.length : Int) * 10) 139
    (("HELLO WORLD FOO" : String)).toList
    (("HELLO WORLD" : String)).toList (by decide)).2 (by decide)

/-- C5: on empty or all-whitespace input, `wrap_text` returns exactly one
line, itself empty. -/
theorem wrap_text_empty_input (m : Str → Int) (mw : Int) (text : Str)
    (h : ∀ c ∈ text, c.isWhitespace) :
    wrap_text m mw text = [[]] := by
  rw [wrap_text, words_all_ws text h]

/-- Witness for C5: whitespace-only input. -/
theorem wrap_text_empty_input_w :
    wrap_text (fun s => (s.length : Int) * 10) 139
      (("   " : String)).toList = [[]] :=
  wrap_text_empty_input (fun s => (s.length : Int) * 10) 139
    (("   " : String)).toList (by decide)

/-- C9: when the input has at least one token, every output line is
non-empty, is exactly a join of one or more consecutive input tokens by
single spaces (hence no leading or trailing whitespace and no double
spaces: the line is fixed by re-splitting it and re-joining). -/
theorem wrap_text_line_structure (m : Str → Int) (mw : Int) (text : Str)
    (h : words text ≠ []) :
    ∀ line ∈ wrap_text m mw text,
      line ≠ [] ∧ joinSpaces (words line) = line ∧
      ∃ toks : List Str, toks ≠ [] ∧
        (∃ pre post, pre ++ toks ++ post = words text) ∧
        line = joinSpaces toks := by
  intro line hline
  obtain ⟨chunks, hn, hj, hcne, hcinv, hout⟩ := wrap_text_chunks m mw text h
  rw [hout] at hline
  obtain ⟨c, hc, rfl⟩ := List.mem_map.1 hline
  have hgood := chunk_token_mem_words text chunks hj c hc
  have hwc : words (joinSpaces c) = c := words_joinSpaces c hgood
  refine ⟨?_, ?_, c, hcne c hc, ?_, rfl⟩
  · exact joinSpaces_ne_nil c (hcne c hc) (fun t ht => (hgood t ht).1)
  · rw [hwc]
  · obtain ⟨pre, post, hpp⟩ := mem_join_decomp chunks c hc
    exact ⟨pre, post, by rw [hpp, hj]⟩

/-- Witness for C9: the line `"HELLO WORLD"` of the spec scenario. -/
theorem wrap_text_line_structure_w :
    (("HELLO WORLD" : String)).toList ≠ ([] : Str) ∧
    joinSpaces (words (("HELLO WORLD" : String)).toList) =
      (("HELLO WORLD" : String)).toList ∧
    ∃ toks : List Str, toks ≠ [] ∧
      (∃ pre post, pre ++ toks ++ post =
        words (("HELLO WORLD FOO" : String)).toList) ∧
      (("HELLO WORLD" : String)).toList = joinSpaces toks :=
  wrap_text_line_structure (fun s => (s.length : Int) * 10) 139
    (("HELLO WORLD FOO" : String)).toList (by decide)
    (("HELLO WORLD" : String)).toList (by decide)

theorem find?_append_of_none {β : Type} (p : β → Bool) (l1 l2 : List β)
    (h : l1.find? p = none) : (l1 ++ l2).find? p = l2.find? p := by
  induction l1 with
  | nil => rfl
  | cons a as ih =>
    cases hp : p a with
    | true => rw [List.find?_cons_of_pos _ hp] at h; cases h
    | false =>
      rw [List.find?_cons_of_neg _ (by simp [hp])] at h
      rw [List.cons_append, List.find?_cons_of_neg _ (by simp [hp])]
      exact ih h

theorem find?_append_of_some {β : Type} (p : β → Bool) (l1 l2 : List β)
    (x : β) (h : l1.find? p = some x) : (l1 ++ l2).find? p = some x := by
  induction l1 with
  | nil => cases h
  | cons a as ih =>
    cases hp : p a with
    | true =>
      rw [List.find?_cons_of_pos _ hp] at h
      rw [List.cons_append, List.find?_cons_of_pos _ hp]
      exact h
    | false =>
      rw [List.find?_cons_of_neg _ (by simp [hp])] at h
      rw [List.cons_append, List.find?_cons_of_neg _ (by simp [hp])]
      exact ih h

theorem find?_filter_keep {β : Type} (p q : β → Bool) (l : List β) (x : β)
    (h : l.find? p = some x) (hq : q x = true) :
    (l.filter q).find? p = some x := by
  induction l with
  | nil => cases h
  | cons a as ih =>
    cases hp : p a with
    | true =>
      rw [List.find?_cons_of_pos _ hp] at h
      obtain rfl : a = x := by injection h
      rw [List.filter_cons_of_pos hq, List.find?_cons_of_pos _ hp]
    | false =>
      rw [List.find?_cons_of_neg _ (by simp [hp])] at h
      cases hqa : q a with
      | true =>
        rw [List.filter_cons_of_pos hqa, List.find?_cons_of_neg _ (by simp [hp])]
        exact ih h
      | false =>
        rw [List.filter_cons_of_neg (by simp [hqa])]
        exact ih h

theorem dictGet_none_all {α : Type} (s : Store α) (k : String)
    (h : dictGet s k = none) : ∀ p ∈ s, (p.1 == k) = false := by
  intro p hp
  rw [dictGet, Option.map_eq_none'] at h
  have := List.find?_eq_none.1 h p hp
  simpa using this

theorem dictGet_none_filter {α : Type} (s : Store α) (k : String)
    (q : String × StoredImage α → Bool) (h : dictGet s k = none) :
    dictGet (s.filter q) k = none := by
  rw [dictGet, Option.map_eq_none', List.find?_eq_none]
  intro p hp
  have := dictGet_none_all s k h p (List.mem_filter.1 hp).1
  simp [this]

theorem dictGet_append_single {α : Type} (s : Store α) (k : String)
    (v : StoredImage α) (h : dictGet s k = none) :
    dictGet (s ++ [(k, v)]) k = some v := by
  rw [dictGet, Option.map_eq_none'] at h
  rw [dictGet, find?_append_of_none _ s _ h]
  simp [List.find?]

theorem dictGet_filter_keep {α : Type} (s : Store α) (k : String)
    (q : String × StoredImage α → Bool) (e : StoredImage α)
    (h : dictGet s k = some e)
    (hq : ∀ p ∈ s, p.2 = e → q p = true) :
    dictGet (s.filter q) k = some e := by
  rw [dictGet, Option.map_eq_some'] at h
  obtain ⟨p, hp, hpe⟩ := h
  have hqp : q p = true := hq p (List.mem_of_find?_eq_some hp) hpe
  rw [dictGet, find?_filter_keep _ q s p hp hqp]
  simp [hpe]

theorem mem_cleanup_iff {α : Type} (s : Store α) (now : ℚ)
    (p : String × StoredImage α) :
    p ∈ cleanup_ephemeral_store s now ↔
      p ∈ s ∧ ¬ p.2.expires_at < now := by
  simp [cleanup_ephemeral_store, List.mem_filter]

theorem dictGet_cleanup_keep {α : Type} (s : Store α) (now : ℚ)
    (k : String) (e : StoredImage α) (h : dictGet s k = some e)
    (he : ¬ e.expires_at < now) :
    dictGet (cleanup_ephemeral_store s now) k = some e := by
  refine dictGet_filter_keep s k _ e h ?_
  intro p _ hpe
  simp [hpe, he]

theorem cleanup_append_keep {α : Type} (s : Store α) (now : ℚ)
    (p : String × StoredImage α) (h : ¬ p.2.expires_at < now) :
    cleanup_ephemeral_store (s ++ [p]) now =
      cleanup_ephemeral_store s now ++ [p] := by
  simp [cleanup_ephemeral_store, List.filter_append, h]

theorem cleanup_append_drop {α : Type} (s : Store α) (now : ℚ)
    (p : String × StoredImage α) (h : p.2.expires_at < now) :
    cleanup_ephemeral_store (s ++ [p]) now =
      cleanup_ephemeral_store s now := by
  simp [cleanup_ephemeral_store, List.filter_append, h]

theorem temp_image_of_missing {α : Type} (s : Store α) (image_id : String)
    (now : ℚ)
    (h : dictGet (cleanup_ephemeral_store s now) image_id = none) :
    temp_image s image_id now = (none, cleanup_ephemeral_store s now) := by
  simp only [temp_image, h]

theorem temp_image_of_found_live {α : Type} (s : Store α)
    (image_id : String) (now : ℚ) (e : StoredImage α)
    (h : dictGet (cleanup_ephemeral_store s now) image_id = some e)
    (he : ¬ e.expires_at < now) :
    temp_image s image_id now =
      (some e.data, cleanup_ephemeral_store s now) := by
  simp only [temp_image, h]
  rw [if_neg he]

theorem temp_image_of_found_dead {α : Type} (s : Store α)
    (image_id : String) (now : ℚ) (e : StoredImage α)
    (h : dictGet (cleanup_ephemeral_store s now) image_id = some e)
    (he : e.expires_at < now) :
    temp_image s image_id now =
      (none, (cleanup_ephemeral_store s now).filter
        (fun p => !(p.1 == image_id))) := by
  simp only [temp_image, h]
  rw [if_pos he]

theorem temp_image_store_mem {α : Type} (s : Store α) (image_id : String)
    (now : ℚ) (p : String × StoredImage α)
    (hp : p ∈ (temp_image s image_id now).2) : p ∈ s := by
  have hs1 : ∀ r ∈ cleanup_ephemeral_store s now, r ∈ s :=
    fun r hr => ((mem_cleanup_iff s now r).1 hr).1
  rcases hE : dictGet (cleanup_ephemeral_store s now) image_id with _ | entry
  · rw [temp_image_of_missing s image_id now hE] at hp
    exact hs1 p hp
  · by_cases he : entry.expires_at < now
    · rw [temp_image_of_found_dead s image_id now entry hE he] at hp
      exact hs1 p (List.mem_filter.1 hp).1
    · rw [temp_image_of_found_live s image_id now entry hE he] at hp
      exact hs1 p hp

theorem find?_map_replace {α : Type} (k : String) (v : StoredImage α) :
    ∀ s : Store α, s.any (fun p => p.1 == k) = true →
    (s.map (fun p => if p.1 == k then (k, v) else p)).find?
      (fun p => p.1 == k) = some (k, v) := by
  intro s
  induction s with
  | nil => intro h; cases h
  | cons a as ih =>
    intro h
    by_cases ha : (a.1 == k) = true
    · simp only [List.map_cons, ha, if_true]
      rw [List.find?_cons_of_pos _ (by simp)]
    · rw [List.map_cons, if_neg ha,
        @List.find?_cons_of_neg _ (fun p => p.1 == k) a _ ha]
      refine ih ?_
      cases hval : (a.1 == k) with
      | true => exact absurd hval ha
      | false =>
        rw [List.any_cons, hval, Bool.false_or] at h
        exact h

theorem find?_map_replace_ne {α : Type} (k k2 : String) (v : StoredImage α)
    (hne : k2 ≠ k) :
    ∀ s : Store α,
    (s.map (fun p => if p.1 == k then (k, v) else p)).find?
      (fun p => p.1 == k2) = s.find? (fun p => p.1 == k2) := by
  intro s
  induction s with
  | nil => rfl
  | cons a as ih =>
    by_cases ha : (a.1 == k) = true
    · have ha1 : a.1 = k := by simpa using ha
      have h2 : ((k : String) == k2) = false :=
        beq_eq_false_iff_ne.mpr (fun hh => hne hh.symm)
      have h3 : (a.1 == k2) = false := by rw [ha1]; exact h2
      simp only [List.map_cons, ha, if_true]
      rw [List.find?_cons_of_neg _ (by simp [h2]),
        List.find?_cons_of_neg _ (by simp [h3])]
      exact ih
    · rw [List.map_cons, if_neg ha]
      by_cases hb : (a.1 == k2) = true
      · rw [@List.find?_cons_of_pos _ (fun p => p.1 == k2) a _ hb,
          @List.find?_cons_of_pos _ (fun p => p.1 == k2) a _ hb]
      · rw [@List.find?_cons_of_neg _ (fun p => p.1 == k2) a _ hb,
          @List.find?_cons_of_neg _ (fun p => p.1 == k2) a _ hb]
        exact ih

theorem dictGet_dictSet_self {α : Type} (s : Store α) (k : String)
    (v : StoredImage α) : dictGet (dictSet s k v) k = some v := by
  by_cases h : s.any (fun p => p.1 == k) = true
  · rw [dictSet, if_pos h, dictGet, find?_map_replace k v s h]
    rfl
  · have hfalse : s.any (fun p => p.1 == k) = false := by
      cases hv : s.any (fun p => p.1 == k) with
      | true => exact absurd hv h
      | false => rfl
    have hnone : dictGet s k = none := by
      rw [dictGet, Option.map_eq_none', List.find?_eq_none]
      exact List.any_eq_false.1 hfalse
    rw [dictSet, if_neg h]
    exact dictGet_append_single s k v hnone

theorem dictGet_dictSet_ne {α : Type} (s : Store α) (k k2 : String)
    (v : StoredImage α) (hne : k2 ≠ k) :
    dictGet (dictSet s k v) k2 = dictGet s k2 := by
  have h2 : ((k : String) == k2) = false :=
    beq_eq_false_iff_ne.mpr (fun hh => hne hh.symm)
  by_cases h : s.any (fun p => p.1 == k) = true
  · rw [dictSet, if_pos h, dictGet, find?_map_replace_ne k k2 v hne s,
      dictGet]
  · rw [dictSet, if_neg h, dictGet, dictGet]
    rcases hf : s.find? (fun p => p.1 == k2) with _ | x
    · rw [find?_append_of_none _ s _ hf, hf]
      simp [List.find?, h2]
    · rw [find?_append_of_some _ s _ x hf, hf]

theorem insertImage_of_fresh {α : Type} (s : Store α) (image_id : String)
    (payload : α) (t0 : ℚ) (h : dictGet s image_id = none) :
    insertImage s image_id payload t0 =
      s ++ [(image_id, ⟨payload, t0 + IMAGE_LIFETIME⟩)] := by
  have hall : ∀ p ∈ s, ¬ (p.1 == image_id) = true := by
    intro p hp
    simp [dictGet_none_all s image_id h p hp]
  have hfalse : s.any (fun p => p.1 == image_id) = false :=
    List.any_eq_false.2 hall
  rw [insertImage, dictSet, if_neg (by simp [hfalse])]


/-- C4: the sweep removes an entry if and only if its `expires_at` has
passed (`now > expires_at`); it never removes an entry still in the
future, removes every expired one, and keeps every surviving pair (id and
payload) unchanged. -/
theorem cleanup_removes_iff {α : Type} (s : Store α) (now : ℚ)
    (p : String × StoredImage α) :
    p ∈ cleanup_ephemeral_store s now ↔
      p ∈ s ∧ ¬ now > p.2.expires_at :=
  mem_cleanup_iff s now p

/-- C3: insert a payload at `t0` into a store not containing the fresh id;
a get strictly inside the TTL window returns the payload, a get strictly
after the window is a miss and leaves the entry absent from the store. -/
theorem insert_get_ttl {α : Type} (s : Store α) (image_id : String)
    (payload : α) (t0 t : ℚ) (hfresh : dictGet s image_id = none) :
    (t - t0 < 60 →
      (temp_image (insertImage s image_id payload t0) image_id t).1 =
        some payload) ∧
    (60 < t - t0 →
      (temp_image (insertImage s image_id payload t0) image_id t).1 =
        none ∧
      dictGet (temp_image (insertImage s image_id payload t0)
        image_id t).2 image_id = none) := by
  have hins := insertImage_of_fresh s image_id payload t0 hfresh
  have h60 : IMAGE_LIFETIME = (60 : ℚ) := rfl
  constructor
  · intro hlt
    have hkeep :
        ¬ ((⟨payload, t0 + IMAGE_LIFETIME⟩ : StoredImage α).expires_at
          < t) := by
      show ¬ (t0 + IMAGE_LIFETIME < t)
      rw [h60]
      intro hcon
      linarith
    have hclean :
        cleanup_ephemeral_store (insertImage s image_id payload t0) t =
          cleanup_ephemeral_store s t ++
            [(image_id, ⟨payload, t0 + IMAGE_LIFETIME⟩)] := by
      rw [hins]
      exact cleanup_append_keep s t _ hkeep
    have hget1 :
        dictGet (cleanup_ephemeral_store
          (insertImage s image_id payload t0) t) image_id =
          some ⟨payload, t0 + IMAGE_LIFETIME⟩ := by
      rw [hclean]
      exact dictGet_append_single _ image_id _
        (dictGet_none_filter s image_id _ hfresh)
    rw [temp_image_of_found_live _ image_id t _ hget1 hkeep]
  · intro hgt
    have hdead :
        (⟨payload, t0 + IMAGE_LIFETIME⟩ : StoredImage α).expires_at
          < t := by
      show t0 + IMAGE_LIFETIME < t
      rw [h60]
      linarith
    have hclean :
        cleanup_ephemeral_store (insertImage s image_id payload t0) t =
          cleanup_ephemeral_store s t := by
      rw [hins]
      exact cleanup_append_drop s t _ hdead
    have hget1 :
        dictGet (cleanup_ephemeral_store
          (insertImage s image_id payload t0) t) image_id = none := by
      rw [hclean]
      exact dictGet_none_filter s image_id _ hfresh
    rw [temp_image_of_missing _ image_id t hget1]
    exact ⟨rfl, hget1⟩

/-- Witness for C3: the spec scenario, insert `"X"` at t=0, get at t=59
returns `"X"`, get at t=61 is a miss and the entry is gone. -/
theorem insert_get_ttl_w :
    (temp_image (insertImage ([] : Store String) ("a") ("X") 0)
      ("a") 59).1 = some ("X") ∧
    (temp_image (insertImage ([] : Store String) ("a") ("X") 0)
      ("a") 61).1 = none ∧
    dictGet (temp_image (insertImage ([] : Store String) ("a") ("X") 0)
      ("a") 61).2 ("a") = none :=
  ⟨(insert_get_ttl ([] : Store String) ("a") ("X") 0 59 rfl).1
      (by norm_num),
   ((insert_get_ttl ([] : Store String) ("a") ("X") 0 61 rfl).2
      (by norm_num)).1,
   ((insert_get_ttl ([] : Store String) ("a") ("X") 0 61 rfl).2
      (by norm_num)).2⟩

/-- C6: when the compositing pipeline raises, the handler returns status
400 carrying exactly the raised message (non-empty when the exception text
is), and the store is left unchanged: no entry is inserted on any failure
path. -/
theorem edit_image_failure_atomic {α : Type} (s : Store α) (msg : String)
    (image_id : String) (now : ℚ) (hmsg : msg ≠ ("")) :
    edit_image s (Except.error msg) image_id now = ((400, some msg), s) ∧
    (edit_image s (Except.error msg) image_id now).1.2 ≠ some ("") := by
  refine ⟨rfl, ?_⟩
  simp [edit_image, hmsg]

/-- Witness for C6: a failing generate request against a one-entry store
answers 400 with the message and leaves the store as it was. -/
theorem edit_image_failure_atomic_w :
    edit_image ([(("b"), ⟨("Y"), 5⟩)] : Store String)
      (Except.error ("boom")) ("a") 0 =
      ((400, some ("boom")), [(("b"), ⟨("Y"), 5⟩)]) :=
  (edit_image_failure_atomic ([(("b"), ⟨("Y"), 5⟩)] : Store String)
    ("boom") ("a") 0 (by decide)).1

/-- C7: the TTL constant is 60; insert records exactly `now + TTL` as the
new entry's expiry; insert leaves every other key's lookup unchanged, and
sweep and get only ever remove entries — any surviving pair was already in
the store with the same id, payload and expiry. -/
theorem store_ttl_invariant {α : Type} (s : Store α) (image_id k : String)
    (payload : α) (now t : ℚ) (e : StoredImage α) (qid : String) :
    IMAGE_LIFETIME = 60 ∧
    dictGet (insertImage s image_id payload now) image_id =
      some ⟨payload, now + IMAGE_LIFETIME⟩ ∧
    (k ≠ image_id →
      dictGet (insertImage s image_id payload now) k = dictGet s k) ∧
    ((k, e) ∈ cleanup_ephemeral_store s t → (k, e) ∈ s) ∧
    ((k, e) ∈ (temp_image s qid t).2 → (k, e) ∈ s) := by
  refine ⟨rfl, dictGet_dictSet_self s image_id _, ?_, ?_, ?_⟩
  · intro hk
    exact dictGet_dictSet_ne s image_id k _ hk
  · intro hmem
    exact ((mem_cleanup_iff s t (k, e)).1 hmem).1
  · intro hmem
    exact temp_image_store_mem s qid t (k, e) hmem

/-- Witness for C7: insert into the empty store records expiry
`0 + IMAGE_LIFETIME`, and an insert under key `"a"` does not disturb the
entry under key `"b"`. -/
theorem store_ttl_invariant_w :
    dictGet (insertImage ([] : Store String) ("a") ("X") 0) ("a") =
      some ⟨("X"), 0 + IMAGE_LIFETIME⟩ ∧
    dictGet (insertImage ([(("b"), ⟨("Y"), 5⟩)] : Store String) ("a")
      ("X") 0) ("b") =
      dictGet ([(("b"), ⟨("Y"), 5⟩)] : Store String) ("b") :=
  ⟨(store_ttl_invariant ([] : Store String) ("a") ("a") ("X") 0 0
      ⟨("X"), 0⟩ ("a")).2.1,
   (store_ttl_invariant ([(("b"), ⟨("Y"), 5⟩)] : Store String) ("a")
      ("b") ("X") 0 0 ⟨("Y"), 5⟩ ("a")).2.2.1 (by decide)⟩

/-- C8: a get of a present, unexpired id returns the payload and mutates
nothing beyond the embedded sweep: the resulting store is exactly the
sweep's result, the entry itself survives with unchanged payload and
expiry, and so does every other unexpired entry. -/
theorem temp_image_get_frame {α : Type} (s : Store α) (image_id : String)
    (now : ℚ) (e : StoredImage α) (hget : dictGet s image_id = some e)
    (hlive : ¬ e.expires_at < now) :
    (temp_image s image_id now).1 = some e.data ∧
    (temp_image s image_id now).2 = cleanup_ephemeral_store s now ∧
    dictGet (temp_image s image_id now).2 image_id = some e ∧
    (∀ k2 f, dictGet s k2 = some f → ¬ f.expires_at < now →
      dictGet (temp_image s image_id now).2 k2 = some f) := by
  have h1 : dictGet (cleanup_ephemeral_store s now) image_id = some e :=
    dictGet_cleanup_keep s now image_id e hget hlive
  rw [temp_image_of_found_live s image_id now e h1 hlive]
  refine ⟨rfl, rfl, h1, ?_⟩
  intro k2 f hf hlf
  exact dictGet_cleanup_keep s now k2 f hf hlf

/-- Witness for C8: a get of an entry expiring at 60, performed at time 10,
returns its payload. -/
theorem temp_image_get_frame_w :
    (temp_image ([(("a"), ⟨("X"), 60⟩)] : Store String) ("a") 10).1 =
      some ((⟨("X"), 60⟩ : StoredImage String)).data :=
  (temp_image_get_frame ([(("a"), ⟨("X"), 60⟩)] : Store String) ("a") 10
    ⟨("X"), 60⟩ rfl (show ¬ ((60 : ℚ) < 10) by norm_num)).1

/-- C10: both expiry comparisons are strict: at the instant
`now = expires_at` the sweep keeps the entry and a get still returns the
payload; an entry becomes invisible only strictly after its expiry. -/
theorem expiry_boundary_strict {α : Type} (s : Store α) (image_id : String)
    (now : ℚ) (e : StoredImage α) (p : String × StoredImage α)
    (hp : p ∈ s) (hpe : p.2.expires_at = now)
    (hget : dictGet s image_id = some e) (he : e.expires_at = now) :
    p ∈ cleanup_ephemeral_store s now ∧
    (temp_image s image_id now).1 = some e.data := by
  have hnl : ¬ e.expires_at < now := by
    rw [he]
    exact lt_irrefl now
  constructor
  · refine (mem_cleanup_iff s now p).2 ⟨hp, ?_⟩
    rw [hpe]
    exact lt_irrefl now
  · rw [temp_image_of_found_live s image_id now e
      (dictGet_cleanup_keep s now image_id e hget hnl) hnl]

/-- Witness for C10: an entry expiring exactly at the current instant 60
survives the sweep and is still served by the get. -/
theorem expiry_boundary_strict_w :
    (("a"), (⟨("X"), 60⟩ : StoredImage String)) ∈
      cleanup_ephemeral_store ([(("a"), ⟨("X"), 60⟩)] : Store String) 60 ∧
    (temp_image ([(("a"), ⟨("X"), 60⟩)] : Store String) ("a") 60).1 =
      some ((⟨("X"), 60⟩ : StoredImage String)).data :=
  expiry_boundary_strict ([(("a"), ⟨("X"), 60⟩)] : Store String) ("a") 60
    ⟨("X"), 60⟩ (("a"), ⟨("X"), 60⟩) (by simp) rfl rfl rfl

/-- The concrete wrapping scenario of the specification: `"HELLO WORLD
FOO"` with measure `len * 10` and `max_width = 139` wraps to
`["HELLO WORLD", "FOO"]`. -/
theorem wrap_text_spec_scenario :
    wrap_text (fun s => (s.length : Int) * 10) 139
      (("HELLO WORLD FOO" : String)).toList =
      [(("HELLO WORLD" : String)).toList, (("FOO" : String)).toList] := by
  decide
